import Mathlib

set_option linter.unusedSectionVars false

/-!
Verification development for the Satellite-Latency-Viewer repository.

The definitions below are shallow embeddings of the Python sources:
  rt_latency/src/amqpfind/amqpfind.py          (fan-in tool: Transforms,
    Dispatcher, json_emit, single_main / multi_main exit codes)
  rt_latency/src/sat_latency/pipeline/extract.py   (ingest parser)
  rt_latency/src/sat_latency/pipeline/transform.py (storage schema)
  rt_latency/src/sat_latency/pipeline/load.py      (reader, BatchWriter)

Machine integers and timestamps are modelled as Nat / Int (microseconds),
payload dictionaries as association lists, fallible evaluation of user
expressions as Except / Option, and wall-clock time as an explicit
parameter threaded through the dispatcher state machine.
-/

namespace SatLatency

/-- Field names of the ingest line format, in order
(extract.py, INGEST_FIELDS).  These MUST match the storage schema. -/
def INGEST_FIELDS : List String :=
  ["topic", "band", "coverage", "ingest_source", "instrument",
   "satellite_ID", "section", "reception_time", "start_time",
   "end_time", "create_time"]

/-- Byte value of the field separator (extract.py, INGEST_SEPARATOR = b"!"). -/
def INGEST_SEPARATOR : Nat := 33

/-- Byte value of the line terminator recognised by fields_from_line. -/
def NEWLINE_BYTE : Nat := 10

/-- Byte string of the null sentinel (extract.py, AMQPFIND_MISSING =
"?UNKNOWN?" encoded as UTF-8). -/
def AMQPFIND_MISSING : List Nat := [63, 85, 78, 75, 78, 79, 87, 78, 63]

/-- Convert the raw bytes of one field into the value yielded by
fields_from_line: empty bytes or the sentinel become none (null). -/
def mkField (f : List Nat) : Option (List Nat) :=
  if f = [] ∨ f = AMQPFIND_MISSING then none else some f

/-- Worker for fields_from_line: `pending` is the slice accumulated since the
last separator (the p_index / p_size window over the stream in the source).
A field is produced at each separator or newline byte; when the input ends
without a trailing separator the pending bytes are dropped, exactly as the
source returns from the read loop without yielding. -/
def fieldsFromLineAux : List Nat → List Nat → List (Option (List Nat))
  | _, [] => []
  | pending, b :: rest =>
    if b = INGEST_SEPARATOR ∨ b = NEWLINE_BYTE then
      mkField pending :: fieldsFromLineAux [] rest
    else
      fieldsFromLineAux (pending ++ [b]) rest

/-- extract.py fields_from_line: split one byte line into field values. -/
def fields_from_line (line : List Nat) : List (Option (List Nat)) :=
  fieldsFromLineAux [] line

/-- extract.py read_input, restricted to a single line: the dict
comprehension zips INGEST_FIELDS with the parsed fields; zip truncates to
the shorter of the two lists. -/
def read_input_line (line : List Nat) : List (String × Option (List Nat)) :=
  INGEST_FIELDS.zip (fields_from_line line)

/-- extract.py read_input over a whole input stream: one mapping is yielded
per line read from the source. -/
def read_input (lines : List (List Nat)) : List (List (String × Option (List Nat))) :=
  lines.map read_input_line

/-- Storage record conforming to STORAGE_SCHEMA (transform.py).  Timestamps
are UTC microseconds since the epoch; the source field named `section` is a
Lean keyword and is embedded as `section_`. -/
structure StoredRecord where
  topic : Option String
  band : Option String
  coverage : Option String
  ingest_source : Option String
  instrument : Option String
  satellite_ID : Option String
  section_ : Option String
  reception_time : Int
  start_time : Int
  end_time : Option Int
  create_time : Option Int
deriving DecidableEq

/-- Field names of the on-disk storage schema (transform.py,
STORAGE_SCHEMA = unify_schemas([META_SCHEMA, TIME_SCHEMA])). -/
def STORAGE_SCHEMA : List String :=
  ["topic", "band", "coverage", "ingest_source", "instrument",
   "satellite_ID", "section", "reception_time", "start_time",
   "end_time", "create_time"]

/-- pyarrow pc.milliseconds_between on microsecond timestamps: the integer
number of milliseconds from t1 to t2 (C-style truncating division). -/
def milliseconds_between (t1 t2 : Int) : Int := (t2 - t1).tdiv 1000

/-- One row of the table returned by read_satellite_data: the stored record
plus the derived latency column.  Arithmetic on the float64 column is
modelled exactly over ℚ. -/
structure LatencyRow where
  record : StoredRecord
  latency : ℚ

/-- load.py read_satellite_data: concatenate the record batches of every
partition file in the date range, apply the optional pushdown filter, then
append a derived latency column equal to
milliseconds_between(start_time, reception_time) cast to float and divided
by 1000.0. -/
def read_satellite_data (partitions : List (List StoredRecord))
    (arrow_filter : Option (StoredRecord → Bool)) : List LatencyRow :=
  let tbl := partitions.flatten
  let tbl := match arrow_filter with
    | some f => tbl.filter f
    | none => tbl
  tbl.map (fun r =>
    ⟨r, (milliseconds_between r.start_time r.reception_time : ℚ) / 1000⟩)

/-- Default pool_size of BatchWriter (load.py, pool_size=5). -/
def default_pool_size : Nat := 5

/-- Observable file actions performed by BatchWriter._get_writer. -/
inductive WriterAction where
  | flushClose (d : Nat)
  | poolAdd (d : Nat)
deriving DecidableEq

/-- load.py BatchWriter._get_writer, acting on the pool of open dates.
The pool is the OrderedDict key sequence, least recently used first.
On a hit the date is moved to the end; on a miss, if the pool is full the
first (least recently used) date is flushed and closed and popped before
the new date is admitted at the end. -/
def get_writer (maxSize : Nat) (pool : List Nat) (d : Nat) :
    List Nat × List WriterAction :=
  if d ∈ pool then
    (pool.erase d ++ [d], [])
  else if maxSize ≤ pool.length then
    (pool.drop 1 ++ [d], (pool.take 1).map WriterAction.flushClose ++ [WriterAction.poolAdd d])
  else
    (pool ++ [d], [WriterAction.poolAdd d])

/-- load.py BatchWriter.write_batch repeated over a sequence of dates,
starting from the empty pool of a fresh BatchWriter. -/
def write_batch_run (maxSize : Nat) (ds : List Nat) : List Nat :=
  ds.foldl (fun p d => (get_writer maxSize p d).1) []

/-- How recently a date was last accessed in a batch sequence: position of
its last occurrence counted from the end (0 = most recent access; length of
the list if never accessed). -/
def recency (accesses : List Nat) (d : Nat) : Nat := accesses.reverse.indexOf d

/-- A sample stored record: reception 5 seconds after start. -/
def sampleRecord : StoredRecord :=
  ⟨none, none, none, none, none, none, none, 5000000, 0, none, none⟩

/-- The sample row read_satellite_data produces for sampleRecord. -/
def sample_row : LatencyRow :=
  ⟨sampleRecord,
   (milliseconds_between sampleRecord.start_time sampleRecord.reception_time : ℚ) / 1000⟩

/-- Bytes of a well-formed 11-field ingest line: a!b!c!d!e!f!g!h!i!j!k
followed by a newline. -/
def wf_line : List Nat :=
  [97, 33, 98, 33, 99, 33, 100, 33, 101, 33, 102, 33, 103, 33, 104, 33,
   105, 33, 106, 33, 107, 10]

end SatLatency

namespace Amqpfind

/-- Outcome of the consume loop of the fan-in tool: a normal end, a
keyboard interrupt, or the TimeoutException raised by the idle-emit alarm
(amqpfind.py handle_timeout). -/
inductive RunOutcome where
  | normal
  | interrupted
  | idleTimeout
deriving DecidableEq

/-- Exit code of multi_main (amqpfind.py): rc starts at 0; the
TimeoutException handler sets rc = 2; KeyboardInterrupt leaves rc = 0. -/
def multi_main_rc : RunOutcome → Nat
  | .idleTimeout => 2
  | _ => 0

/-- Exit code of single_main (amqpfind.py): KeyboardInterrupt and normal
return give 0; the TimeoutException handler returns 1. -/
def single_main_rc : RunOutcome → Nat
  | .idleTimeout => 1
  | _ => 0

/-- Exit code of main (amqpfind.py) for a consume run: with exactly one
server, key/window/score options conflict (return 1), otherwise
single_main runs; with several servers multi_main runs. -/
def main_rc (nservers : Nat) (keyOpt windowOpt scoreOpt : Bool)
    (outcome : RunOutcome) : Nat :=
  if nservers = 1 then
    if keyOpt || windowOpt || scoreOpt then 1
    else single_main_rc outcome
  else multi_main_rc outcome

/-- A parsed piece of the -j format string: literal text or a {name}
placeholder referencing a payload key. -/
inductive TemplatePart where
  | lit (s : String)
  | field (name : String)
deriving DecidableEq

/-- Plain dictionary lookup on a payload rendered to strings. -/
def lookupStr (content : List (String × String)) (k : String) : Option String :=
  (content.find? (fun p => p.1 == k)).map (fun p => p.2)

/-- amqpfind.py _missing_: pseudo-constructor used to make sure all keys
resolve. -/
def missing_default : String := "?UNKNOWN?"

/-- Lookup through the defaultdict(_missing_) built by json_emit
(`discontent`): present keys give their value, absent keys give the
_missing_ sentinel. -/
def discontent_get (content : List (String × String)) (k : String) : String :=
  (lookupStr content k).getD missing_default

/-- Resolve the parts of a template through a getter, left to right; a
getter returning none models the KeyError a plain dict raises for an
absent key, which aborts the whole format call. -/
def format_parts (get : String → Option String) :
    List TemplatePart → Except String (List String)
  | [] => Except.ok []
  | p :: rest =>
    let r : Except String String := match p with
      | TemplatePart.lit s => Except.ok s
      | TemplatePart.field n =>
        match get n with
        | some v => Except.ok v
        | none => Except.error n
    match r with
    | Except.error e => Except.error e
    | Except.ok s => (format_parts get rest).map (fun l => s :: l)

/-- str.format_map over a parsed template: every placeholder resolved
through the getter, the resolved pieces joined back into one line. -/
def format_map (parts : List TemplatePart) (get : String → Option String) :
    Except String String :=
  (format_parts get parts).map (fun l => String.join l)

/-- How a single template part renders under the defaultdict getter. -/
def renderPart (content : List (String × String)) : TemplatePart → String
  | TemplatePart.lit s => s
  | TemplatePart.field n => discontent_get content n

/-- amqpfind.py json_emit, template branch (format_str not none and not "?"
or "*"): build discontent = defaultdict(_missing_) updated with the
content, then format_map the template over it. -/
def json_emit_template (parts : List TemplatePart)
    (content : List (String × String)) : Except String String :=
  format_map parts (fun k => some (discontent_get content k))

/-- Python dict item assignment d[k] = v on an association list: replace
the value of an existing key in place, else append the new pair. -/
def set_item {V : Type} (m : List (String × V)) (k : String) (v : V) :
    List (String × V) :=
  if m.any (fun p => p.1 == k) then
    m.map (fun p => if p.1 == k then (p.1, v) else p)
  else m ++ [(k, v)]

/-- One transform rule: the target field name together with the evaluation
of its compiled expression against a payload binding view.  Evaluation that
raises is an Except.error carrying the exception text. -/
def TransformRule (V : Type) := String × (List (String × V) → Except String V)

/-- The assignment loop of Transforms.__call__, with the accumulated
new_msg explicit: each expression is evaluated against old_msg, the
unmodified input payload, and its result assigned into new_msg. -/
def transforms_call_from {V : Type} (rules : List (TransformRule V))
    (msg acc : List (String × V)) : Except String (List (String × V)) :=
  rules.foldlM (fun new_msg rule =>
    (rule.2 msg).map (fun v => set_item new_msg rule.1 v)) acc

/-- amqpfind.py Transforms.__call__: new_msg starts as a copy of the
message and each expression result is assigned in order.  There is no
exception handler in the loop: the first expression that raises aborts
the whole call and the exception propagates to the caller. -/
def transforms_call {V : Type} (rules : List (TransformRule V))
    (msg : List (String × V)) : Except String (List (String × V)) :=
  transforms_call_from rules msg msg

/-- amqpfind.py Dispatcher.add_default_metadata: provide __topic__ and
__reception_time__ when absent, then the extra default payload pairs.
The value written for __reception_time__ (datetime.utcnow().isoformat())
is passed in as a parameter. -/
def add_default_metadata {V : Type} (topicVal recTimeVal : V)
    (extra : List (String × V)) (msg : List (String × V)) :
    List (String × V) :=
  let m1 := if msg.any (fun p => p.1 == "__topic__") then msg
    else msg ++ [("__topic__", topicVal)]
  let m2 := if m1.any (fun p => p.1 == "__reception_time__") then m1
    else m1 ++ [("__reception_time__", recTimeVal)]
  extra.foldl (fun m kv => if m.any (fun p => p.1 == kv.1) then m else m ++ [kv]) m2

/-- amqpfind.py Dispatcher.emit up to the handoff to the emitter: reset the
idle alarm (not modelled), enrich the message with default metadata, apply
the transforms if configured, and pass (topic, message) on to the callback
or json_emit.  A transform exception aborts emit before anything is
handed to the emitter. -/
def emit_result {V : Type}
    (transforms : Option (List (TransformRule V)))
    (topicVal recTimeVal : V) (extra : List (String × V))
    (topic : String) (msg : List (String × V)) :
    Except String (String × List (String × V)) :=
  let enriched := add_default_metadata topicVal recTimeVal extra msg
  match transforms with
  | none => Except.ok (topic, enriched)
  | some rules => (transforms_call rules enriched).map (fun m => (topic, m))

/-- One buffered candidate of a Compete window: the (when, host,
routing_key, msg) tuple appended by Dispatcher._dispatch_compete. -/
structure BufEntry (Msg : Type) where
  when : Nat
  host : String
  routing_key : String
  msg : Msg
deriving DecidableEq

/-- The two shapes of the -s score option (amqpfind.py Dispatcher.__init__):
a scalar scoring expression to maximise (score_code compiled), or a user
lambda comparing two messages and returning one (score_code = False and
compare replaced). -/
inductive ScoreMode (Msg : Type) where
  | scalar (score : Msg → Int)
  | comparator (pick : Msg → Msg → Msg)

/-- Static configuration of a Dispatcher.  key_code models the compiled -k
expression evaluated through key_for_msg: evaluation errors and an
expression result of Python None are both the value none.  shuffle_perm
models random.shuffle, an arbitrary permutation of the candidate list;
horizon is the -w window (or the 5 second default) in the same time unit
as event timestamps. -/
structure DispatcherConfig (Msg Key : Type) where
  key_code : Option (Msg → Option Key)
  score : Option (ScoreMode Msg)
  horizon : Nat
  shuffle : Bool
  shuffle_perm : List (BufEntry Msg) → List (BufEntry Msg)

/-- Mutable state of a Dispatcher: active_keys maps each open window key to
when it was first seen, msg_buffer maps keys to their buffered candidates.
Both dictionaries are association lists in insertion order. -/
structure DispatcherState (Msg Key : Type) where
  active_keys : List (Option Key × Nat)
  msg_buffer : List (Option Key × List (BufEntry Msg))

variable {Msg Key : Type} [DecidableEq Msg] [DecidableEq Key]

/-- State of a freshly constructed Dispatcher. -/
def initState : DispatcherState Msg Key := ⟨[], []⟩

/-- amqpfind.py Dispatcher.key_for_msg: evaluate key_code on the message;
with no key_code, or when evaluation raises, the key is None. -/
def key_for_msg (cfg : DispatcherConfig Msg Key) (m : Msg) : Option Key :=
  match cfg.key_code with
  | some f => f m
  | none => none

/-- Python dict membership test on the active_keys association list. -/
def hasKeyEntry (ak : List (Option Key × Nat)) (k : Option Key) : Bool :=
  ak.any (fun p => p.1 == k)

/-- defaultdict(list) read access on msg_buffer: a missing key reads as the
empty list. -/
def buf_get (buf : List (Option Key × List (BufEntry Msg))) (k : Option Key) :
    List (BufEntry Msg) :=
  ((buf.find? (fun p => p.1 == k)).map (fun p => p.2)).getD []

/-- self.msg_buffer[key].append(entry) on the defaultdict. -/
def buf_append (buf : List (Option Key × List (BufEntry Msg))) (k : Option Key)
    (e : BufEntry Msg) : List (Option Key × List (BufEntry Msg)) :=
  if buf.any (fun p => p.1 == k) then
    buf.map (fun p => if p.1 == k then (p.1, p.2 ++ [e]) else p)
  else buf ++ [(k, [e])]

/-- del self.msg_buffer[key]. -/
def buf_erase (buf : List (Option Key × List (BufEntry Msg))) (k : Option Key) :
    List (Option Key × List (BufEntry Msg)) :=
  buf.eraseP (fun p => p.1 == k)

/-- amqpfind.py Dispatcher.compare lifted to buffer entries, so that the
routing-key lookup the source performs through id(winner) is tracked
alongside each message.  The default scalar comparator keeps msg1 exactly
when s1 >= s2 (ties keep the first argument); a user lambda keeps the
entry whose message the lambda returns. -/
def compare_entries (sm : ScoreMode Msg) (e1 e2 : BufEntry Msg) : BufEntry Msg :=
  match sm with
  | ScoreMode.scalar f => if f e2.msg ≤ f e1.msg then e1 else e2
  | ScoreMode.comparator c => if c e1.msg e2.msg = e1.msg then e1 else e2

/-- amqpfind.py Dispatcher.choose_msg: shuffle the candidates when
configured, then return the first candidate if there is no scoring
mechanism, else fold the comparator left over the list (functools.reduce).
random.shuffle permutes in place, so an empty shuffle of a non-empty list
cannot occur; that artefact case returns none. -/
def choose_entry (cfg : DispatcherConfig Msg Key) (entries : List (BufEntry Msg)) :
    Option (BufEntry Msg) :=
  let es := if cfg.shuffle then cfg.shuffle_perm entries else entries
  match cfg.score, es with
  | _, [] => none
  | none, e :: _ => some e
  | some sm, e :: rest => some (rest.foldl (compare_entries sm) e)

/-- amqpfind.py Dispatcher._dismiss_active_key: with no scoring configured
msg_buffer is None and nothing is pending; otherwise take the candidates
buffered for the key (an empty list is logged and dropped without emit),
delete the buffer entry, choose the winner and emit it under the
routing key it arrived with. -/
def dismiss_active_key (cfg : DispatcherConfig Msg Key)
    (buf : List (Option Key × List (BufEntry Msg))) (k : Option Key) :
    List (Option Key × List (BufEntry Msg)) × List (String × Msg) :=
  match cfg.score with
  | none => (buf, [])
  | some _ =>
    let entries := buf_get buf k
    if entries = [] then (buf, [])
    else
      match choose_entry cfg entries with
      | none => (buf_erase buf k, [])
      | some w => (buf_erase buf k, [(w.routing_key, w.msg)])

/-- Iteration of _dismiss_active_key over the keys being deleted by
_clean_expired, threading the buffer and collecting the emits in order. -/
def dismiss_fold (cfg : DispatcherConfig Msg Key)
    (buf : List (Option Key × List (BufEntry Msg))) :
    List (Option Key) →
      List (Option Key × List (BufEntry Msg)) × List (String × Msg)
  | [] => (buf, [])
  | k :: rest =>
    let r := dismiss_active_key cfg buf k
    let r2 := dismiss_fold cfg r.1 rest
    (r2.1, r.2 ++ r2.2)

/-- amqpfind.py Dispatcher._clean_expired: every key whose window opened
more than horizon ago (strictly, when + horizon < now) is dismissed, then
removed from active_keys. -/
def clean_expired (cfg : DispatcherConfig Msg Key) (st : DispatcherState Msg Key)
    (now : Nat) : DispatcherState Msg Key × List (String × Msg) :=
  let delset := (st.active_keys.filter (fun p => p.2 + cfg.horizon < now)).map (fun p => p.1)
  let step := dismiss_fold cfg st.msg_buffer delset
  (⟨st.active_keys.filter (fun p => ¬(p.2 + cfg.horizon < now)), step.1⟩, step.2)

/-- amqpfind.py Dispatcher.max_sleep_til_next_window: indefinite when no
window is open, else the time until the earliest opened window expires
(clamped at zero by Nat subtraction, as max(0.0, ...) in the source). -/
def max_sleep_til_next_window (cfg : DispatcherConfig Msg Key)
    (st : DispatcherState Msg Key) (now : Nat) : Option Nat :=
  match (st.active_keys.map (fun p => p.2)).min? with
  | none => none
  | some t => some (t + cfg.horizon - now)

/-- amqpfind.py Dispatcher._dispatch_race: emit the first message for a
key without an open window and record the window start; drop messages
whose key already has an open window. -/
def dispatch_race (cfg : DispatcherConfig Msg Key) (st : DispatcherState Msg Key)
    (when : Nat) (routing_key : String) (m : Msg) :
    DispatcherState Msg Key × List (String × Msg) :=
  let k := key_for_msg cfg m
  if hasKeyEntry st.active_keys k then (st, [])
  else (⟨st.active_keys ++ [(k, when)], st.msg_buffer⟩, [(routing_key, m)])

/-- amqpfind.py Dispatcher._dispatch_compete: open a window for the key if
none is open, and buffer the message for the competition. -/
def dispatch_compete (cfg : DispatcherConfig Msg Key) (st : DispatcherState Msg Key)
    (when : Nat) (host routing_key : String) (m : Msg) : DispatcherState Msg Key :=
  let k := key_for_msg cfg m
  let ak := if hasKeyEntry st.active_keys k then st.active_keys
    else st.active_keys ++ [(k, when)]
  ⟨ak, buf_append st.msg_buffer k ⟨when, host, routing_key, m⟩⟩

/-- amqpfind.py Dispatcher.__call__: clean expired windows when any window
is open, then dispatch the message by mode: key without score races, key
with score competes, no key emits immediately (whether or not a score is
configured).  The emissions requested from Dispatcher.emit are returned as
(routing_key, msg) pairs in order. -/
def dispatcher_call (cfg : DispatcherConfig Msg Key) (st : DispatcherState Msg Key)
    (now : Nat) (ev : Option (Nat × String × String × Msg)) :
    DispatcherState Msg Key × List (String × Msg) :=
  let cleaned := if st.active_keys.isEmpty then (st, []) else clean_expired cfg st now
  match ev with
  | none => cleaned
  | some (when, host, routing_key, m) =>
    match cfg.key_code, cfg.score with
    | some _, none =>
      let r := dispatch_race cfg cleaned.1 when routing_key m
      (r.1, cleaned.2 ++ r.2)
    | some _, some _ =>
      (dispatch_compete cfg cleaned.1 when host routing_key m, cleaned.2)
    | none, _ => (cleaned.1, cleaned.2 ++ [(routing_key, m)])

/-- One interaction of the fan-in supervisor with the dispatcher: either a
message pulled from the fan-in queue at its reception time, or a cleanup
pass after a queue-wait timeout. -/
inductive Step (Msg : Type) where
  | ev (now : Nat) (host routing_key : String) (m : Msg)
  | tick (now : Nat)

/-- Wall-clock time at which a supervisor step happens. -/
def stepTime : Step Msg → Nat
  | .ev n _ _ _ => n
  | .tick n => n

/-- The event a supervisor step hands to the dispatcher: a message step
passes (when, host, routing_key, msg) with when equal to the wall clock
of the step; a cleanup pass passes nothing. -/
def stepEvent : Step Msg → Option (Nat × String × String × Msg)
  | .ev now host rk m => some (now, host, rk, m)
  | .tick _ => none

/-- Drive the dispatcher through a list of supervisor steps, accumulating
the emit log as (time, routing_key, msg) triples.  Events are dispatched
at their reception timestamp (their when equals the wall clock of the
step). -/
def run_from (cfg : DispatcherConfig Msg Key) (st : DispatcherState Msg Key)
    (log : List (Nat × String × Msg)) :
    List (Step Msg) → DispatcherState Msg Key × List (Nat × String × Msg)
  | [] => (st, log)
  | s :: rest =>
    let r := dispatcher_call cfg st (stepTime s) (stepEvent s)
    run_from cfg r.1 (log ++ r.2.map (fun e => (stepTime s, e.1, e.2))) rest

/-- Run the dispatcher from the state of a fresh Dispatcher. -/
def dispatcher_run (cfg : DispatcherConfig Msg Key) (steps : List (Step Msg)) :
    DispatcherState Msg Key × List (Nat × String × Msg) :=
  run_from cfg initState [] steps

/-- Key of an emitted message, as recomputed by key_for_msg. -/
def emitKey (cfg : DispatcherConfig Msg Key) (e : Nat × String × Msg) : Option Key :=
  key_for_msg cfg e.2.2

/-- Invariant of the Race-mode dispatcher relating the emit log and the
state at time tcur: all windows opened in the past; all log times in the
past; every past emit either still owns a window opened no earlier than
the emit, or its window expired strictly before tcur; and any two
same-key emits are spaced more than horizon apart. -/
def RaceInv (cfg : DispatcherConfig Msg Key) (log : List (Nat × String × Msg))
    (st : DispatcherState Msg Key) (tcur : Nat) : Prop :=
  (∀ p ∈ st.active_keys, p.2 ≤ tcur) ∧
  (∀ e ∈ log, e.1 ≤ tcur) ∧
  (∀ e ∈ log, (∃ p ∈ st.active_keys, p.1 = emitKey cfg e ∧ e.1 ≤ p.2) ∨
    e.1 + cfg.horizon < tcur) ∧
  List.Pairwise (fun a b => emitKey cfg a = emitKey cfg b → a.1 + cfg.horizon < b.1) log

/-- Invariant of the Compete-mode dispatcher state: every open window has
at least one buffered candidate; every buffered candidate is keyed by its
buffer key; open windows have distinct keys; buffer entries have distinct
keys. -/
def CompeteInv (cfg : DispatcherConfig Msg Key) (st : DispatcherState Msg Key) : Prop :=
  (∀ p ∈ st.active_keys, buf_get st.msg_buffer p.1 ≠ []) ∧
  (∀ q ∈ st.msg_buffer, ∀ e ∈ q.2, key_for_msg cfg e.msg = q.1) ∧
  st.active_keys.Pairwise (fun p q => p.1 ≠ q.1) ∧
  st.msg_buffer.Pairwise (fun p q => p.1 ≠ q.1)

/-- Race-mode configuration: -k given, -s absent. -/
def raceCfg (kf : Msg → Option Key) (hor : Nat)
    (perm : List (BufEntry Msg) → List (BufEntry Msg)) : DispatcherConfig Msg Key :=
  ⟨some kf, none, hor, true, perm⟩

/-- Compete-mode configuration with a scalar score expression: -k and -s
given. -/
def competeCfg (kf : Msg → Option Key) (f : Msg → Int) (hor : Nat)
    (perm : List (BufEntry Msg) → List (BufEntry Msg)) : DispatcherConfig Msg Key :=
  ⟨some kf, some (ScoreMode.scalar f), hor, true, perm⟩

/-- Dispatcher state after a run of supervisor steps. -/
def compete_state (cfg : DispatcherConfig Msg Key) (steps : List (Step Msg)) :
    DispatcherState Msg Key :=
  (dispatcher_run cfg steps).1

/-- The delset of _clean_expired at time now: keys of the windows that
close because when + horizon < now. -/
def expired_keys (cfg : DispatcherConfig Msg Key) (st : DispatcherState Msg Key)
    (now : Nat) : List (Option Key) :=
  (st.active_keys.filter (fun p => p.2 + cfg.horizon < now)).map (fun p => p.1)

/-- The emits produced by a _clean_expired pass at time now. -/
def window_close_emits (cfg : DispatcherConfig Msg Key)
    (st : DispatcherState Msg Key) (now : Nat) : List (String × Msg) :=
  (clean_expired cfg st now).2

/-- Race configuration whose key expression raises on every message. -/
def race_fail_key_cfg : DispatcherConfig Nat Nat :=
  ⟨some (fun _ => none), none, 5, true, id⟩

/-- Demo race configuration: messages are numbers, key is the last digit,
10 tick window. -/
def race_demo_cfg : DispatcherConfig Nat Nat :=
  raceCfg (fun m => some (m % 10)) 10 id

/-- Demo compete configuration: key is the last digit, the score is the
message value, 10 tick window. -/
def compete_demo_cfg : DispatcherConfig Nat Nat :=
  competeCfg (fun m => some (m % 10)) (fun m => (m : Int)) 10 id

/-- Demo event sequence: three same-key events at times 0, 4 and 12. -/
def race_demo_steps : List (Step Nat) :=
  [Step.ev 0 "hostA" "r1" 16, Step.ev 4 "hostB" "r2" 26, Step.ev 12 "hostA" "r3" 36]

/-- Demo competition: three same-key events inside one window. -/
def compete_demo_steps : List (Step Nat) :=
  [Step.ev 0 "hostA" "r1" 56, Step.ev 3 "hostB" "r2" 76, Step.ev 6 "hostA" "r3" 66]

/-- Transform rules whose first expression raises and whose second
succeeds. -/
def failing_rules : List (TransformRule String) :=
  [("a", fun _ => Except.error "boom"), ("b", fun _ => Except.ok "2")]

/-- Transform rules that all succeed. -/
def ok_rules : List (TransformRule String) :=
  [("a", fun _ => Except.ok "1")]

/-- Template for scenario S4: "{sat}/{missing}". -/
def s4_parts : List TemplatePart :=
  [TemplatePart.field "sat", TemplatePart.lit "/", TemplatePart.field "missing"]

/-- Payload for scenario S4. -/
def s4_content : List (String × String) := [("sat", "G16")]

end Amqpfind

/-! Theorems.  Each claim of the specification is settled by exactly one
theorem below; helper lemmas precede the claim theorems they serve. -/

namespace SatLatency

theorem read_input_length (lines : List (List Nat)) :
    (read_input lines).length = lines.length := by
  simp [read_input]

/-- C9 counterexample: the empty input line (a bare newline) parses to a
single null field, not 11, yet read_input yields one mapping for it
(topic bound to null) instead of yielding no mapping for that line. -/
theorem read_input_empty_line_cex :
    read_input [[NEWLINE_BYTE]] = [[("topic", (none : Option (List Nat)))]] := by
  rfl

/-- C9 amended: read_input yields exactly one mapping for every input
line, malformed lines included; the mapping zips INGEST_FIELDS with the
parsed fields, so it has min(11, field count) entries, and a well-formed
11-field line gives one mapping with all 11 fields. -/
theorem read_input_one_mapping_per_line (lines : List (List Nat)) (line : List Nat) :
    (read_input lines).length = lines.length ∧
    (read_input_line line).length = min INGEST_FIELDS.length (fields_from_line line).length ∧
    ((fields_from_line line).length = 11 → (read_input_line line).length = 11) := by
  refine ⟨read_input_length lines, ?_, ?_⟩
  · simp [read_input_line, List.length_zip]
  · intro h
    simp [read_input_line, List.length_zip, h, INGEST_FIELDS]

theorem read_input_one_mapping_per_line_witness :
    (read_input_line wf_line).length = 11 :=
  (read_input_one_mapping_per_line [] wf_line).2.2 (by decide)

/-- C7: read_satellite_data appends, at read time only, a latency column
equal to the millisecond difference between start_time and reception_time
divided by 1000 (seconds at millisecond precision), for every row of the
result; every result row is one of the stored records of the concatenated
partitions, and the storage schema carries no latency field. -/
theorem latency_derived_at_read (partitions : List (List StoredRecord))
    (arrow_filter : Option (StoredRecord → Bool)) :
    (∀ row ∈ read_satellite_data partitions arrow_filter,
      row.latency =
        (milliseconds_between row.record.start_time row.record.reception_time : ℚ) / 1000 ∧
      row.record ∈ partitions.flatten) ∧
    "latency" ∉ STORAGE_SCHEMA := by
  constructor
  · intro row hrow
    simp only [read_satellite_data] at hrow
    cases arrow_filter with
    | none =>
      simp only [List.mem_map] at hrow
      obtain ⟨r, hr, rfl⟩ := hrow
      exact ⟨rfl, hr⟩
    | some f =>
      simp only [List.mem_map] at hrow
      obtain ⟨r, hr, rfl⟩ := hrow
      exact ⟨rfl, List.mem_of_mem_filter hr⟩
  · decide

theorem latency_derived_at_read_witness :
    sample_row.latency =
      (milliseconds_between sample_row.record.start_time
        sample_row.record.reception_time : ℚ) / 1000 ∧
    sample_row.record ∈ [[sampleRecord]].flatten :=
  ((latency_derived_at_read [[sampleRecord]] none).1 sample_row
    (by simp [read_satellite_data, sample_row]))

end SatLatency

namespace Amqpfind

/-- C6 counterexample: in the single-broker configuration (one server, no
dedup options) an idle timeout makes the tool exit with status 1, not 2. -/
theorem idle_timeout_single_rc_cex :
    main_rc 1 false false false RunOutcome.idleTimeout = 1 ∧
    main_rc 1 false false false RunOutcome.idleTimeout ≠ 2 := by
  decide

/-- C6 amended: an idle-emit timeout exits with status 2 in the
multi-broker configuration, but with status 1 in the single-broker
configuration. -/
theorem idle_timeout_exit_codes (n : Nat) (k w sc : Bool) (hn : n ≠ 1) :
    main_rc n k w sc RunOutcome.idleTimeout = 2 ∧
    main_rc 1 false false false RunOutcome.idleTimeout = 1 := by
  refine ⟨?_, by decide⟩
  unfold main_rc
  rw [if_neg hn]
  rfl

theorem idle_timeout_exit_codes_witness :
    main_rc 2 false false false RunOutcome.idleTimeout = 2 :=
  (idle_timeout_exit_codes 2 false false false (by decide)).1

theorem format_parts_total (get : String → String) (parts : List TemplatePart) :
    format_parts (fun k => some (get k)) parts =
      Except.ok (parts.map (fun p => match p with
        | TemplatePart.lit s => s
        | TemplatePart.field n => get n)) := by
  induction parts with
  | nil => rfl
  | cons p rest ih =>
    cases p with
    | lit s => simp [format_parts, ih, Except.map]
    | field n => simp [format_parts, ih, Except.map]

/-- C5: in the template emitter mode every format placeholder whose key is
absent from the payload renders as the literal ?UNKNOWN?, and emission
never fails because of missing payload fields: json_emit_template always
returns ok, the joined rendering of all template parts. -/
theorem template_missing_key_unknown (parts : List TemplatePart)
    (content : List (String × String)) :
    json_emit_template parts content =
      Except.ok (String.join (parts.map (renderPart content))) ∧
    ∀ n, lookupStr content n = none →
      renderPart content (TemplatePart.field n) = missing_default := by
  constructor
  · show (format_parts (fun k => some (discontent_get content k)) parts).map
      (fun l => String.join l) = _
    rw [format_parts_total]
    rfl
  · intro n h
    show discontent_get content n = missing_default
    unfold discontent_get
    rw [h]
    rfl

theorem template_missing_key_unknown_witness :
    json_emit_template s4_parts s4_content = Except.ok "G16/?UNKNOWN?" := by
  rw [(template_missing_key_unknown s4_parts s4_content).1]
  rfl

theorem transforms_call_from_cons {V : Type} (r : TransformRule V)
    (t : List (TransformRule V)) (msg acc : List (String × V)) :
    transforms_call_from (r :: t) msg acc =
      match r.2 msg with
      | Except.error e => Except.error e
      | Except.ok v => transforms_call_from t msg (set_item acc r.1 v) := by
  cases hr : r.2 msg with
  | error e =>
    show (r.2 msg).map _ >>= _ = _
    rw [hr]
    rfl
  | ok v =>
    show (r.2 msg).map _ >>= _ = _
    rw [hr]
    rfl

theorem transforms_foldlM_isOk {V : Type} (msg : List (String × V))
    (rules : List (TransformRule V)) (acc : List (String × V)) :
    (transforms_call_from rules msg acc).isOk = true ↔
    ∀ r ∈ rules, (r.2 msg).isOk = true := by
  induction rules generalizing acc with
  | nil =>
    constructor
    · intro _ r hr
      exact absurd hr (List.not_mem_nil r)
    · intro _
      rfl
  | cons r t ih =>
    rw [transforms_call_from_cons]
    cases hr : r.2 msg with
    | error e =>
      constructor
      · intro h
        exact absurd h (by simp [Except.isOk, Except.toBool])
      · intro h
        have hok := h r (List.mem_cons_self r t)
        rw [hr] at hok
        exact absurd hok (by simp [Except.isOk, Except.toBool])
    | ok v =>
      rw [ih]
      constructor
      · intro h r2 hr2
        rcases List.mem_cons.mp hr2 with h1 | h2
        · subst h1
          rw [hr]
          rfl
        · exact h r2 h2
      · intro h r2 hr2
        exact h r2 (List.mem_cons_of_mem _ hr2)

/-- C3 counterexample: a transform expression that raises is not caught by
Transforms.__call__: with the rule list [a raises, b succeeds], emit
aborts with the propagating exception and the event is never handed to
the emitter, instead of the failing expression being skipped and the
event continuing. -/
theorem transform_error_not_skipped_cex :
    emit_result (some failing_rules) "T" "NOW" ([] : List (String × String))
      "topic.x" [("x", "1")] = Except.error "boom" := by
  rfl

/-- C3 amended: Transforms.__call__ has no exception handler, so the first
transform expression that raises aborts the whole emit: emit succeeds
exactly when every transform expression evaluates without raising on the
enriched payload, and when any expression raises the event is not emitted
at all. -/
theorem transform_error_aborts_emit {V : Type} (rules : List (TransformRule V))
    (topicVal recTimeVal : V) (extra : List (String × V)) (topic : String)
    (msg : List (String × V)) :
    ((emit_result (some rules) topicVal recTimeVal extra topic msg).isOk =
      (transforms_call rules (add_default_metadata topicVal recTimeVal extra msg)).isOk) ∧
    ((transforms_call rules (add_default_metadata topicVal recTimeVal extra msg)).isOk = true ↔
      ∀ r ∈ rules,
        (r.2 (add_default_metadata topicVal recTimeVal extra msg)).isOk = true) := by
  constructor
  · show ((transforms_call rules _).map _).isOk = _
    cases transforms_call rules (add_default_metadata topicVal recTimeVal extra msg) with
    | error e => rfl
    | ok m => rfl
  · exact transforms_foldlM_isOk _ rules _

theorem transform_error_aborts_emit_witness :
    (emit_result (some ok_rules) "T" "NOW" ([] : List (String × String))
      "t" [("x", "1")]).isOk = true := by
  have h := transform_error_aborts_emit ok_rules "T" "NOW"
    ([] : List (String × String)) "t" [("x", "1")]
  rw [h.1]
  exact h.2.mpr (by decide)

end Amqpfind

namespace Amqpfind

variable {Msg Key : Type} [DecidableEq Msg] [DecidableEq Key]

/-- C4 counterexample: in Race mode with a key expression that raises on
every message (key_for_msg gives None), the second failing-key event
arriving inside the window is dropped rather than emitted passthrough:
of two such events only the first is emitted. -/
theorem race_failed_key_not_passthrough_cex :
    (dispatcher_run race_fail_key_cfg
      [Step.ev 0 "hostA" "rk" 1, Step.ev 1 "hostB" "rk" 2]).2 = [(0, "rk", 1)] := by
  rfl

/-- C4 amended: when the key expression raises in Race mode the event is
keyed None and None is deduplicated like any other key: the first no-key
event opens a window and is emitted, and a later no-key event whose
arrival is within horizon of the window opening is dropped, not emitted. -/
theorem race_failed_key_opens_none_window (kf : Msg → Option Key) (hor : Nat)
    (perm : List (BufEntry Msg) → List (BufEntry Msg))
    (t1 t2 : Nat) (ha hb rk1 rk2 : String) (m1 m2 : Msg)
    (hk1 : kf m1 = none) (hk2 : kf m2 = none) (hwin : ¬ t1 + hor < t2) :
    (dispatcher_run (raceCfg kf hor perm)
      [Step.ev t1 ha rk1 m1, Step.ev t2 hb rk2 m2]).2 = [(t1, rk1, m1)] := by
  have hle : t2 ≤ t1 + hor := Nat.not_lt.mp hwin
  simp [dispatcher_run, run_from, dispatcher_call, raceCfg, initState,
    dispatch_race, key_for_msg, hk1, hk2, hasKeyEntry, clean_expired,
    dismiss_fold, stepTime, stepEvent, hwin, hle]

theorem race_failed_key_opens_none_window_witness :
    (dispatcher_run (raceCfg (fun _ => (none : Option Nat)) 5 id)
      [Step.ev 0 "hostA" "rk" (1 : Nat), Step.ev 1 "hostB" "rk" 2]).2 =
      [(0, "rk", 1)] :=
  race_failed_key_opens_none_window (fun _ => none) 5 id 0 1 "hostA" "hostB"
    "rk" "rk" 1 2 rfl rfl (by decide)

theorem run_from_no_key_aux (sc : Option (ScoreMode Msg)) (hor : Nat) (shuf : Bool)
    (perm : List (BufEntry Msg) → List (BufEntry Msg)) (steps : List (Step Msg))
    (log : List (Nat × String × Msg)) :
    run_from (⟨none, sc, hor, shuf, perm⟩ : DispatcherConfig Msg Key) initState log steps =
      (initState, log ++ steps.filterMap (fun s => match s with
        | Step.ev t _ rk m => some (t, rk, m)
        | Step.tick _ => none)) := by
  induction steps generalizing log with
  | nil => simp [run_from]
  | cons s rest ih =>
    cases s with
    | ev now host rk m =>
      show run_from (⟨none, sc, hor, shuf, perm⟩ : DispatcherConfig Msg Key)
        initState (log ++ [(now, rk, m)]) rest = _
      rw [ih]
      simp [List.filterMap_cons]
    | tick now =>
      show run_from (⟨none, sc, hor, shuf, perm⟩ : DispatcherConfig Msg Key)
        initState (log ++ []) rest = _
      rw [ih]
      simp [List.filterMap_cons]

/-- C10: with a score expression configured but no key expression, the
dispatcher behaves as Passthrough, a combination absent from the mode
table: every event is emitted immediately under its own routing key, no
window is ever opened and nothing is buffered (the state never leaves the
fresh state), the run equals the run of the true Passthrough
configuration, and the wait the dispatcher requests stays indefinite. -/
theorem score_without_key_passthrough (sm : ScoreMode Msg) (hor : Nat) (shuf : Bool)
    (perm : List (BufEntry Msg) → List (BufEntry Msg)) (steps : List (Step Msg))
    (now : Nat) :
    dispatcher_run (⟨none, some sm, hor, shuf, perm⟩ : DispatcherConfig Msg Key) steps =
      (initState, steps.filterMap (fun s => match s with
        | Step.ev t _ rk m => some (t, rk, m)
        | Step.tick _ => none)) ∧
    dispatcher_run (⟨none, some sm, hor, shuf, perm⟩ : DispatcherConfig Msg Key) steps =
      dispatcher_run (⟨none, none, hor, shuf, perm⟩ : DispatcherConfig Msg Key) steps ∧
    max_sleep_til_next_window (⟨none, some sm, hor, shuf, perm⟩ : DispatcherConfig Msg Key)
      (initState : DispatcherState Msg Key) now = none := by
  refine ⟨?_, ?_, rfl⟩
  · simpa using run_from_no_key_aux (some sm) hor shuf perm steps []
  · rw [dispatcher_run, dispatcher_run, run_from_no_key_aux, run_from_no_key_aux]

end Amqpfind

namespace SatLatency

theorem recency_append_self (ds : List Nat) (d : Nat) :
    recency (ds ++ [d]) d = 0 := by
  unfold recency
  rw [List.reverse_append]
  simp [List.indexOf_cons_self]

theorem recency_append_ne (ds : List Nat) (d e : Nat) (hne : e ≠ d) :
    recency (ds ++ [d]) e = recency ds e + 1 := by
  unfold recency
  rw [List.reverse_append]
  simp only [List.reverse_cons, List.reverse_nil, List.nil_append,
    List.singleton_append]
  rw [List.indexOf_cons_ne _ (fun h => hne h.symm)]

theorem write_batch_run_append (maxSize : Nat) (ds : List Nat) (d : Nat) :
    write_batch_run maxSize (ds ++ [d]) =
      (get_writer maxSize (write_batch_run maxSize ds) d).1 := by
  unfold write_batch_run
  rw [List.foldl_append]
  rfl

theorem write_batch_run_sorted (maxSize : Nat) (ds : List Nat) :
    List.Pairwise (fun a b => recency ds b < recency ds a)
      (write_batch_run maxSize ds) := by
  induction ds using List.reverseRecOn with
  | nil => exact List.Pairwise.nil
  | append_singleton ds d ih =>
    rw [write_batch_run_append]
    have hnodup : (write_batch_run maxSize ds).Nodup := by
      refine ih.imp_of_mem ?_
      intro a b _ _ hr
      intro heq
      rw [heq] at hr
      exact lt_irrefl _ hr
    unfold get_writer
    by_cases hmem : d ∈ write_batch_run maxSize ds
    · rw [if_pos hmem]
      rw [List.pairwise_append]
      refine ⟨?_, List.pairwise_singleton _ _, ?_⟩
      · have hsub : ((write_batch_run maxSize ds).erase d).Sublist
          (write_batch_run maxSize ds) := List.erase_sublist d _
        refine (ih.sublist hsub).imp_of_mem ?_
        intro a b ha hb hr
        have ha2 := (hnodup.mem_erase_iff.mp ha).1
        have hb2 := (hnodup.mem_erase_iff.mp hb).1
        rw [recency_append_ne ds d a ha2, recency_append_ne ds d b hb2]
        exact Nat.succ_lt_succ hr
      · intro a ha b hb
        rw [List.mem_singleton] at hb
        subst hb
        have ha2 := (hnodup.mem_erase_iff.mp ha).1
        rw [recency_append_self, recency_append_ne ds b a ha2]
        exact Nat.succ_pos _
    · rw [if_neg hmem]
      by_cases hfull : maxSize ≤ (write_batch_run maxSize ds).length
      · rw [if_pos hfull]
        show List.Pairwise _ ((write_batch_run maxSize ds).drop 1 ++ [d])
        rw [List.pairwise_append]
        refine ⟨?_, List.pairwise_singleton _ _, ?_⟩
        · have hsub := List.drop_sublist 1 (write_batch_run maxSize ds)
          refine (ih.sublist hsub).imp_of_mem ?_
          intro a b ha hb hr
          have ha2 : a ≠ d := fun h => hmem (h ▸ hsub.mem ha)
          have hb2 : b ≠ d := fun h => hmem (h ▸ hsub.mem hb)
          rw [recency_append_ne ds d a ha2, recency_append_ne ds d b hb2]
          exact Nat.succ_lt_succ hr
        · intro a ha b hb
          rw [List.mem_singleton] at hb
          subst hb
          have ha2 : a ≠ b := fun h =>
            hmem (h ▸ (List.drop_sublist 1 _).mem ha)
          rw [recency_append_self, recency_append_ne ds b a ha2]
          exact Nat.succ_pos _
      · rw [if_neg hfull]
        show List.Pairwise _ (write_batch_run maxSize ds ++ [d])
        rw [List.pairwise_append]
        refine ⟨?_, List.pairwise_singleton _ _, ?_⟩
        · refine ih.imp_of_mem ?_
          intro a b ha hb hr
          have ha2 : a ≠ d := fun h => hmem (h ▸ ha)
          have hb2 : b ≠ d := fun h => hmem (h ▸ hb)
          rw [recency_append_ne ds d a ha2, recency_append_ne ds d b hb2]
          exact Nat.succ_lt_succ hr
        · intro a ha b hb
          rw [List.mem_singleton] at hb
          subst hb
          have ha2 : a ≠ b := fun h => hmem (h ▸ ha)
          rw [recency_append_self, recency_append_ne ds b a ha2]
          exact Nat.succ_pos _

theorem write_batch_run_length (maxSize : Nat) (hpos : 1 ≤ maxSize) (ds : List Nat) :
    (write_batch_run maxSize ds).length ≤ maxSize := by
  induction ds using List.reverseRecOn with
  | nil => exact Nat.le_trans (Nat.zero_le 1) hpos
  | append_singleton ds d ih =>
    rw [write_batch_run_append]
    unfold get_writer
    by_cases hmem : d ∈ write_batch_run maxSize ds
    · rw [if_pos hmem]
      have hlen : 1 ≤ (write_batch_run maxSize ds).length :=
        List.length_pos.mpr (List.ne_nil_of_mem hmem)
      rw [List.length_append, List.length_erase_of_mem hmem]
      simp only [List.length_singleton]
      omega
    · rw [if_neg hmem]
      by_cases hfull : maxSize ≤ (write_batch_run maxSize ds).length
      · rw [if_pos hfull]
        show ((write_batch_run maxSize ds).drop 1 ++ [d]).length ≤ maxSize
        rw [List.length_append, List.length_drop]
        simp only [List.length_singleton]
        omega
      · rw [if_neg hfull]
        show (write_batch_run maxSize ds ++ [d]).length ≤ maxSize
        rw [List.length_append]
        simp only [List.length_singleton]
        omega

/-- C8: at every point of a write_batch sequence starting from a fresh
BatchWriter the pool holds at most pool_size open files (1 ≤ pool_size;
the default is 5); and whenever a batch for a date not in the pool arrives
while the pool is full, the first pool entry, which is the least recently
used date (largest recency), is flushed and closed before the new date is
admitted: the action list is [flushClose lru, poolAdd d]. -/
theorem batch_writer_pool_bounded_lru (maxSize : Nat) (hpos : 1 ≤ maxSize)
    (ds : List Nat) (n : Nat) (d : Nat) :
    (write_batch_run maxSize (ds.take n)).length ≤ maxSize ∧
    (d ∉ write_batch_run maxSize (ds.take n) →
      maxSize ≤ (write_batch_run maxSize (ds.take n)).length →
      get_writer maxSize (write_batch_run maxSize (ds.take n)) d =
        ((write_batch_run maxSize (ds.take n)).drop 1 ++ [d],
         ((write_batch_run maxSize (ds.take n)).take 1).map WriterAction.flushClose ++
           [WriterAction.poolAdd d]) ∧
      ∀ lru ∈ (write_batch_run maxSize (ds.take n)).take 1,
        ∀ e ∈ write_batch_run maxSize (ds.take n),
          recency (ds.take n) e ≤ recency (ds.take n) lru) := by
  constructor
  · exact write_batch_run_length maxSize hpos (ds.take n)
  · intro hmem hfull
    constructor
    · unfold get_writer
      rw [if_neg hmem, if_pos hfull]
    · intro lru hlru e he
      have hsorted := write_batch_run_sorted maxSize (ds.take n)
      cases hpool : write_batch_run maxSize (ds.take n) with
      | nil =>
        rw [hpool] at hlru
        exact absurd hlru (List.not_mem_nil lru)
      | cons h0 t0 =>
        rw [hpool] at hlru
        simp only [List.take_succ_cons, List.take_zero, List.mem_singleton] at hlru
        subst hlru
        rw [hpool] at hsorted he
        rcases List.mem_cons.mp he with he1 | he2
        · subst he1
          exact Nat.le_refl _
        · exact Nat.le_of_lt ((List.pairwise_cons.mp hsorted).1 e he2)

theorem batch_writer_pool_bounded_lru_witness :
    (write_batch_run default_pool_size ([1, 2, 3, 4, 5, 6].take 5)).length ≤
      default_pool_size :=
  (batch_writer_pool_bounded_lru default_pool_size (by decide) [1, 2, 3, 4, 5, 6] 5 6).1

end SatLatency

namespace Amqpfind

variable {Msg Key : Type} [DecidableEq Msg] [DecidableEq Key]

theorem hasKeyEntry_false_iff (ak : List (Option Key × Nat)) (k : Option Key) :
    hasKeyEntry ak k = false ↔ ∀ p ∈ ak, p.1 ≠ k := by
  unfold hasKeyEntry
  rw [List.any_eq_false]
  constructor
  · intro h p hp
    have := h p hp
    simpa using this
  · intro h p hp
    simpa using h p hp

theorem dismiss_score_none (cfg : DispatcherConfig Msg Key) (hs : cfg.score = none)
    (buf : List (Option Key × List (BufEntry Msg))) (k : Option Key) :
    dismiss_active_key cfg buf k = (buf, []) := by
  unfold dismiss_active_key
  rw [hs]

theorem dismiss_fold_score_none (cfg : DispatcherConfig Msg Key) (hs : cfg.score = none)
    (buf : List (Option Key × List (BufEntry Msg))) (del : List (Option Key)) :
    dismiss_fold cfg buf del = (buf, []) := by
  induction del with
  | nil => rfl
  | cons k rest ih =>
    unfold dismiss_fold
    rw [dismiss_score_none cfg hs]
    dsimp only
    rw [ih]
    rfl

theorem clean_expired_score_none (cfg : DispatcherConfig Msg Key) (hs : cfg.score = none)
    (st : DispatcherState Msg Key) (now : Nat) :
    clean_expired cfg st now =
      (⟨st.active_keys.filter (fun p => ¬(p.2 + cfg.horizon < now)), st.msg_buffer⟩, []) := by
  simp only [clean_expired, dismiss_fold_score_none cfg hs]

theorem clean_expired_empty (cfg : DispatcherConfig Msg Key)
    (st : DispatcherState Msg Key) (hst : st.active_keys = []) (now : Nat) :
    clean_expired cfg st now = (st, []) := by
  obtain ⟨ak, buf⟩ := st
  simp only at hst
  subst hst
  rfl

theorem dispatcher_call_cleaned (cfg : DispatcherConfig Msg Key)
    (st : DispatcherState Msg Key) (now : Nat) :
    (if st.active_keys.isEmpty then (st, ([] : List (String × Msg)))
      else clean_expired cfg st now) = clean_expired cfg st now := by
  by_cases hak : st.active_keys.isEmpty
  · rw [if_pos hak, clean_expired_empty cfg st (List.isEmpty_iff.mp hak) now]
  · rw [if_neg hak]

theorem clean_expired_race (kf : Msg → Option Key) (hor : Nat)
    (perm : List (BufEntry Msg) → List (BufEntry Msg))
    (st : DispatcherState Msg Key) (now : Nat) :
    clean_expired (raceCfg kf hor perm) st now =
      (⟨st.active_keys.filter (fun p => ¬(p.2 + hor < now)), st.msg_buffer⟩, []) := by
  rw [clean_expired_score_none (raceCfg kf hor perm) rfl]
  rfl

theorem dispatcher_call_race_ev (kf : Msg → Option Key) (hor : Nat)
    (perm : List (BufEntry Msg) → List (BufEntry Msg))
    (st : DispatcherState Msg Key) (now when : Nat) (h rk : String) (m : Msg) :
    dispatcher_call (raceCfg kf hor perm) st now (some (when, h, rk, m)) =
      dispatch_race (raceCfg kf hor perm)
        (clean_expired (raceCfg kf hor perm) st now).1 when rk m := by
  unfold dispatcher_call
  rw [dispatcher_call_cleaned]
  show ((dispatch_race _ _ _ _ _).1,
    (clean_expired (raceCfg kf hor perm) st now).2 ++ (dispatch_race _ _ _ _ _).2) = _
  rw [clean_expired_race]
  rw [List.nil_append]

theorem dispatcher_call_race_tick (kf : Msg → Option Key) (hor : Nat)
    (perm : List (BufEntry Msg) → List (BufEntry Msg))
    (st : DispatcherState Msg Key) (now : Nat) :
    dispatcher_call (raceCfg kf hor perm) st now none =
      (⟨st.active_keys.filter (fun p => ¬(p.2 + hor < now)), st.msg_buffer⟩, []) := by
  unfold dispatcher_call
  rw [dispatcher_call_cleaned]
  exact clean_expired_race kf hor perm st now

end Amqpfind

namespace Amqpfind

variable {Msg Key : Type} [DecidableEq Msg] [DecidableEq Key]

theorem dispatch_race_hit (cfg : DispatcherConfig Msg Key)
    (st : DispatcherState Msg Key) (when : Nat) (rk : String) (m : Msg)
    (ht : hasKeyEntry st.active_keys (key_for_msg cfg m) = true) :
    dispatch_race cfg st when rk m = (st, []) := by
  simp only [dispatch_race, ht, if_true]

theorem dispatch_race_miss (cfg : DispatcherConfig Msg Key)
    (st : DispatcherState Msg Key) (when : Nat) (rk : String) (m : Msg)
    (ht : hasKeyEntry st.active_keys (key_for_msg cfg m) = false) :
    dispatch_race cfg st when rk m =
      (⟨st.active_keys ++ [(key_for_msg cfg m, when)], st.msg_buffer⟩, [(rk, m)]) := by
  simp only [dispatch_race, ht, Bool.false_eq_true, if_false]

theorem dispatcher_call_tick_clean (cfg : DispatcherConfig Msg Key)
    (st : DispatcherState Msg Key) (now : Nat) :
    dispatcher_call cfg st now none = clean_expired cfg st now := by
  unfold dispatcher_call
  rw [dispatcher_call_cleaned]

theorem dispatcher_call_key_no_score (cfg : DispatcherConfig Msg Key)
    (kf : Msg → Option Key) (hk : cfg.key_code = some kf) (hs : cfg.score = none)
    (st : DispatcherState Msg Key) (now when : Nat) (h rk : String) (m : Msg) :
    dispatcher_call cfg st now (some (when, h, rk, m)) =
      dispatch_race cfg (clean_expired cfg st now).1 when rk m := by
  unfold dispatcher_call
  rw [dispatcher_call_cleaned, hk, hs]
  show ((dispatch_race cfg (clean_expired cfg st now).1 when rk m).1,
    (clean_expired cfg st now).2 ++
      (dispatch_race cfg (clean_expired cfg st now).1 when rk m).2) = _
  rw [clean_expired_score_none cfg hs]
  rw [List.nil_append]

theorem race_inv_mono (cfg : DispatcherConfig Msg Key)
    (log : List (Nat × String × Msg)) (st : DispatcherState Msg Key)
    (t t' : Nat) (hle : t ≤ t') (h : RaceInv cfg log st t) :
    RaceInv cfg log st t' := by
  obtain ⟨h1, h2, h3, h4⟩ := h
  refine ⟨fun p hp => Nat.le_trans (h1 p hp) hle,
          fun e he => Nat.le_trans (h2 e he) hle, ?_, h4⟩
  intro e he
  rcases h3 e he with hl | hr
  · exact Or.inl hl
  · exact Or.inr (Nat.lt_of_lt_of_le hr hle)

theorem race_inv_clean (cfg : DispatcherConfig Msg Key) (hs : cfg.score = none)
    (log : List (Nat × String × Msg)) (st : DispatcherState Msg Key) (now : Nat)
    (h : RaceInv cfg log st now) :
    RaceInv cfg log (clean_expired cfg st now).1 now := by
  rw [clean_expired_score_none cfg hs]
  obtain ⟨h1, h2, h3, h4⟩ := h
  refine ⟨fun p hp => h1 p (List.mem_of_mem_filter hp), h2, ?_, h4⟩
  intro e he
  rcases h3 e he with ⟨p, hp, hpk, hpe⟩ | hr
  · by_cases hexp : p.2 + cfg.horizon < now
    · exact Or.inr (by omega)
    · refine Or.inl ⟨p, ?_, hpk, hpe⟩
      rw [List.mem_filter]
      refine ⟨hp, ?_⟩
      simpa using hexp
  · exact Or.inr hr

theorem race_inv_dispatch (cfg : DispatcherConfig Msg Key)
    (log : List (Nat × String × Msg)) (st : DispatcherState Msg Key)
    (now : Nat) (rk : String) (m : Msg)
    (h : RaceInv cfg log st now) :
    RaceInv cfg
      (log ++ (dispatch_race cfg st now rk m).2.map (fun e => (now, e.1, e.2)))
      (dispatch_race cfg st now rk m).1 now := by
  by_cases ht : hasKeyEntry st.active_keys (key_for_msg cfg m) = true
  · rw [dispatch_race_hit cfg st now rk m ht]
    simpa using h
  · have ht2 : hasKeyEntry st.active_keys (key_for_msg cfg m) = false :=
      Bool.eq_false_iff.mpr ht
    rw [dispatch_race_miss cfg st now rk m ht2]
    obtain ⟨h1, h2, h3, h4⟩ := h
    have hnone := (hasKeyEntry_false_iff st.active_keys (key_for_msg cfg m)).mp ht2
    refine ⟨?_, ?_, ?_, ?_⟩
    · intro p hp
      rcases List.mem_append.mp hp with hp1 | hp2
      · exact h1 p hp1
      · rw [List.mem_singleton] at hp2
        subst hp2
        exact Nat.le_refl now
    · intro e he
      rcases List.mem_append.mp he with he1 | he2
      · exact h2 e he1
      · simp only [List.map_cons, List.map_nil, List.mem_singleton] at he2
        subst he2
        exact Nat.le_refl now
    · intro e he
      rcases List.mem_append.mp he with he1 | he2
      · rcases h3 e he1 with ⟨p, hp, hpk, hpe⟩ | hr
        · exact Or.inl ⟨p, List.mem_append_left _ hp, hpk, hpe⟩
        · exact Or.inr hr
      · simp only [List.map_cons, List.map_nil, List.mem_singleton] at he2
        subst he2
        refine Or.inl ⟨(key_for_msg cfg m, now), List.mem_append_right _ ?_, rfl, Nat.le_refl now⟩
        exact List.mem_singleton.mpr rfl
    · simp only [List.map_cons, List.map_nil]
      rw [List.pairwise_append]
      refine ⟨h4, List.pairwise_singleton _ _, ?_⟩
      intro a ha b hb
      rw [List.mem_singleton] at hb
      subst hb
      intro hab
      rcases h3 a ha with ⟨p, hp, hpk, hpe⟩ | hr
      · exfalso
        apply hnone p hp
        rw [hpk, hab]
        rfl
      · exact hr

theorem run_from_cons (cfg : DispatcherConfig Msg Key) (st : DispatcherState Msg Key)
    (log : List (Nat × String × Msg)) (s : Step Msg) (rest : List (Step Msg)) :
    run_from cfg st log (s :: rest) =
      run_from cfg (dispatcher_call cfg st (stepTime s) (stepEvent s)).1
        (log ++ (dispatcher_call cfg st (stepTime s) (stepEvent s)).2.map
          (fun e => (stepTime s, e.1, e.2))) rest := rfl

theorem race_run_from_inv (cfg : DispatcherConfig Msg Key) (kf : Msg → Option Key)
    (hk : cfg.key_code = some kf) (hs : cfg.score = none)
    (steps : List (Step Msg)) (st : DispatcherState Msg Key)
    (log : List (Nat × String × Msg)) (t : Nat)
    (hchain : List.Chain (fun a b => a ≤ b) t (steps.map stepTime))
    (hinv : RaceInv cfg log st t) :
    ∃ tF, RaceInv cfg (run_from cfg st log steps).2 (run_from cfg st log steps).1 tF := by
  induction steps generalizing st log t with
  | nil => exact ⟨t, hinv⟩
  | cons s rest ih =>
    rw [List.map_cons, List.chain_cons] at hchain
    obtain ⟨hts, hchain2⟩ := hchain
    have hinv2 := race_inv_mono cfg log st t (stepTime s) hts hinv
    rw [run_from_cons]
    cases s with
    | tick now =>
      simp only [stepTime, stepEvent]
      rw [dispatcher_call_tick_clean]
      rw [clean_expired_score_none cfg hs]
      have hinv3 := race_inv_clean cfg hs log st now hinv2
      rw [clean_expired_score_none cfg hs] at hinv3
      refine ih _ _ now hchain2 ?_
      simpa using hinv3
    | ev now host rk m =>
      simp only [stepTime, stepEvent]
      rw [dispatcher_call_key_no_score cfg kf hk hs]
      have hinv3 := race_inv_clean cfg hs log st now hinv2
      have hinv4 := race_inv_dispatch cfg log (clean_expired cfg st now).1 now rk m hinv3
      exact ih _ _ now hchain2 hinv4

/-- C2: in Race mode (key expression, no score), the first event whose key
has no open window is emitted immediately and opens a window stamped with
its arrival time; an event whose key has an open window is dropped; and
along any run whose step times are monotone, any two emits with the same
key are separated by strictly more than horizon: no other emit has the
same key within horizon seconds after an emit. -/
theorem race_dedup_within_horizon (kf : Msg → Option Key) (hor : Nat)
    (perm : List (BufEntry Msg) → List (BufEntry Msg)) (steps : List (Step Msg))
    (hchain : List.Chain (fun a b => a ≤ b) 0 (steps.map stepTime)) :
    List.Pairwise
      (fun a b => emitKey (raceCfg kf hor perm) a = emitKey (raceCfg kf hor perm) b →
        a.1 + hor < b.1)
      (dispatcher_run (raceCfg kf hor perm) steps).2 ∧
    (∀ (st : DispatcherState Msg Key) (when : Nat) (rk : String) (m : Msg),
      hasKeyEntry st.active_keys (key_for_msg (raceCfg kf hor perm) m) = false →
      dispatch_race (raceCfg kf hor perm) st when rk m =
        (⟨st.active_keys ++ [(key_for_msg (raceCfg kf hor perm) m, when)],
          st.msg_buffer⟩, [(rk, m)])) ∧
    (∀ (st : DispatcherState Msg Key) (when : Nat) (rk : String) (m : Msg),
      hasKeyEntry st.active_keys (key_for_msg (raceCfg kf hor perm) m) = true →
      dispatch_race (raceCfg kf hor perm) st when rk m = (st, [])) := by
  refine ⟨?_, ?_, ?_⟩
  · have hinit : RaceInv (raceCfg kf hor perm) [] (initState : DispatcherState Msg Key) 0 := by
      refine ⟨?_, ?_, ?_, List.Pairwise.nil⟩
      · intro p hp
        exact absurd hp (List.not_mem_nil p)
      · intro e he
        exact absurd he (List.not_mem_nil e)
      · intro e he
        exact absurd he (List.not_mem_nil e)
    obtain ⟨tF, hF⟩ := race_run_from_inv (raceCfg kf hor perm) kf rfl rfl steps
      initState [] 0 hchain hinit
    exact hF.2.2.2
  · intro st when rk m ht
    exact dispatch_race_miss _ st when rk m ht
  · intro st when rk m ht
    exact dispatch_race_hit _ st when rk m ht

theorem race_dedup_within_horizon_witness :
    List.Pairwise
      (fun a b => emitKey race_demo_cfg a = emitKey race_demo_cfg b →
        a.1 + 10 < b.1)
      (dispatcher_run race_demo_cfg race_demo_steps).2 :=
  (race_dedup_within_horizon (fun m => some (m % 10)) 10 id race_demo_steps
    (by simp [race_demo_steps, stepTime, List.chain_cons])).1

end Amqpfind

namespace Amqpfind

variable {Msg Key : Type} [DecidableEq Msg] [DecidableEq Key]

theorem buf_get_cons (p : Option Key × List (BufEntry Msg))
    (buf : List (Option Key × List (BufEntry Msg))) (k : Option Key) :
    buf_get (p :: buf) k = if p.1 = k then p.2 else buf_get buf k := by
  by_cases hp : p.1 = k
  · rw [if_pos hp]
    unfold buf_get
    rw [List.find?_cons_of_pos]
    · rfl
    · exact beq_iff_eq.mpr hp
  · rw [if_neg hp]
    unfold buf_get
    rw [List.find?_cons_of_neg]
    intro hc
    exact hp (beq_iff_eq.mp hc)

theorem buf_erase_cons (p : Option Key × List (BufEntry Msg))
    (buf : List (Option Key × List (BufEntry Msg))) (k : Option Key) :
    buf_erase (p :: buf) k = if p.1 = k then buf else p :: buf_erase buf k := by
  by_cases hp : p.1 = k
  · rw [if_pos hp]
    unfold buf_erase
    rw [List.eraseP_cons_of_pos]
    exact beq_iff_eq.mpr hp
  · rw [if_neg hp]
    unfold buf_erase
    rw [List.eraseP_cons_of_neg]
    simp only [Bool.not_eq_true]
    exact beq_eq_false_iff_ne.mpr hp

theorem buf_get_erase_ne (buf : List (Option Key × List (BufEntry Msg)))
    (k k2 : Option Key) (hne : k2 ≠ k) :
    buf_get (buf_erase buf k) k2 = buf_get buf k2 := by
  induction buf with
  | nil => rfl
  | cons p rest ih =>
    rw [buf_erase_cons]
    by_cases hp : p.1 = k
    · have hk2 : ¬ p.1 = k2 := fun hc => hne (by rw [← hc, hp])
      rw [if_pos hp, buf_get_cons, if_neg hk2]
    · rw [if_neg hp, buf_get_cons, buf_get_cons]
      by_cases hp2 : p.1 = k2
      · rw [if_pos hp2, if_pos hp2]
      · rw [if_neg hp2, if_neg hp2]
        exact ih

theorem buf_get_not_any (buf : List (Option Key × List (BufEntry Msg)))
    (k : Option Key) (hany : buf.any (fun q => q.1 == k) = false) :
    buf_get buf k = [] := by
  unfold buf_get
  rw [List.find?_eq_none.mpr]
  · rfl
  · intro q hq
    have := List.any_eq_false.mp hany q hq
    simpa using this

theorem buf_append_hit (buf : List (Option Key × List (BufEntry Msg)))
    (k : Option Key) (e : BufEntry Msg)
    (hany : buf.any (fun q => q.1 == k) = true) :
    buf_append buf k e = buf.map (fun q => if q.1 = k then (q.1, q.2 ++ [e]) else q) := by
  unfold buf_append
  rw [if_pos hany]
  apply List.map_congr_left
  intro q _
  by_cases hq : q.1 = k
  · rw [if_pos (beq_iff_eq.mpr hq), if_pos hq]
  · rw [if_neg (fun hc => hq (beq_iff_eq.mp hc)), if_neg hq]

theorem buf_append_miss (buf : List (Option Key × List (BufEntry Msg)))
    (k : Option Key) (e : BufEntry Msg)
    (hany : buf.any (fun q => q.1 == k) = false) :
    buf_append buf k e = buf ++ [(k, [e])] := by
  unfold buf_append
  rw [hany]
  rfl

theorem buf_get_touch_ne (buf : List (Option Key × List (BufEntry Msg)))
    (k k2 : Option Key) (e : BufEntry Msg) (hne : k2 ≠ k) :
    buf_get (buf.map (fun q => if q.1 = k then (q.1, q.2 ++ [e]) else q)) k2 =
      buf_get buf k2 := by
  induction buf with
  | nil => rfl
  | cons p rest ih =>
    rw [List.map_cons, buf_get_cons, buf_get_cons]
    by_cases hp : p.1 = k
    · have hk2 : ¬ p.1 = k2 := fun hc => hne (by rw [← hc, hp])
      rw [if_pos hp]
      dsimp only
      rw [if_neg hk2, if_neg hk2]
      exact ih
    · rw [if_neg hp]
      by_cases hp2 : p.1 = k2
      · rw [if_pos hp2, if_pos hp2]
      · rw [if_neg hp2, if_neg hp2]
        exact ih

theorem buf_get_touch_self (buf : List (Option Key × List (BufEntry Msg)))
    (k : Option Key) (e : BufEntry Msg)
    (hany : buf.any (fun q => q.1 == k) = true) :
    buf_get (buf.map (fun q => if q.1 = k then (q.1, q.2 ++ [e]) else q)) k =
      buf_get buf k ++ [e] := by
  induction buf with
  | nil => exact absurd hany (by simp)
  | cons p rest ih =>
    rw [List.map_cons, buf_get_cons, buf_get_cons]
    by_cases hp : p.1 = k
    · rw [if_pos hp]
      simp only
      rw [if_pos hp, if_pos hp]
    · rw [if_neg hp, if_neg hp, if_neg hp]
      apply ih
      rcases List.any_eq_true.mp hany with ⟨q, hq, hqk⟩
      rcases List.mem_cons.mp hq with hq1 | hq2
      · exact absurd (beq_iff_eq.mp (hq1 ▸ hqk)) hp
      · exact List.any_eq_true.mpr ⟨q, hq2, hqk⟩

theorem buf_get_append_self (buf : List (Option Key × List (BufEntry Msg)))
    (k : Option Key) (e : BufEntry Msg) :
    buf_get (buf_append buf k e) k = buf_get buf k ++ [e] := by
  by_cases hany : buf.any (fun q => q.1 == k) = true
  · rw [buf_append_hit buf k e hany, buf_get_touch_self buf k e hany]
  · have hany2 := Bool.eq_false_iff.mpr hany
    rw [buf_append_miss buf k e hany2]
    rw [buf_get_not_any buf k hany2]
    unfold buf_get
    rw [List.find?_append, List.find?_eq_none.mpr, Option.none_or]
    · rw [List.find?_cons_of_pos]
      · rfl
      · simp
    · intro q hq
      have := List.any_eq_false.mp hany2 q hq
      simpa using this

theorem buf_get_append_ne (buf : List (Option Key × List (BufEntry Msg)))
    (k k2 : Option Key) (e : BufEntry Msg) (hne : k2 ≠ k) :
    buf_get (buf_append buf k e) k2 = buf_get buf k2 := by
  by_cases hany : buf.any (fun q => q.1 == k) = true
  · rw [buf_append_hit buf k e hany, buf_get_touch_ne buf k k2 e hne]
  · rw [buf_append_miss buf k e (Bool.eq_false_iff.mpr hany)]
    unfold buf_get
    rw [List.find?_append]
    have h2 : List.find? (fun p => p.1 == k2) [(k, ([] : List (BufEntry Msg)) ++ [e])] = none := by
      rw [List.find?_eq_none]
      intro q hq
      rw [List.mem_singleton] at hq
      subst hq
      simp only
      intro hc
      exact hne (beq_iff_eq.mp hc).symm
    rw [show ((k, [e]) : Option Key × List (BufEntry Msg)) = (k, [] ++ [e]) from rfl, h2]
    rw [Option.or_none]

end Amqpfind

namespace Amqpfind

variable {Msg Key : Type} [DecidableEq Msg] [DecidableEq Key]

theorem foldl_compare_mem (f : Msg → Int) (rest : List (BufEntry Msg)) :
    ∀ e, rest.foldl (compare_entries (ScoreMode.scalar f)) e ∈ e :: rest := by
  induction rest with
  | nil =>
    intro e
    exact List.mem_singleton.mpr rfl
  | cons x t ih =>
    intro e
    rw [List.foldl_cons]
    have h2 := ih (compare_entries (ScoreMode.scalar f) e x)
    have hcx : compare_entries (ScoreMode.scalar f) e x = e ∨
        compare_entries (ScoreMode.scalar f) e x = x := by
      unfold compare_entries
      dsimp only
      by_cases hc : f x.msg ≤ f e.msg
      · exact Or.inl (if_pos hc)
      · exact Or.inr (if_neg hc)
    rcases List.mem_cons.mp h2 with h3 | h4
    · rcases hcx with h5 | h5
      · rw [h3, h5]
        exact List.mem_cons_self _ _
      · rw [h3, h5]
        exact List.mem_cons_of_mem _ (List.mem_cons_self _ _)
    · exact List.mem_cons_of_mem _ (List.mem_cons_of_mem _ h4)

theorem foldl_compare_max (f : Msg → Int) (rest : List (BufEntry Msg)) :
    ∀ e, ∀ c ∈ e :: rest,
      f c.msg ≤ f (rest.foldl (compare_entries (ScoreMode.scalar f)) e).msg := by
  induction rest with
  | nil =>
    intro e c hc
    rw [List.mem_singleton] at hc
    subst hc
    exact le_refl _
  | cons x t ih =>
    intro e c hc
    rw [List.foldl_cons]
    have hkey : f e.msg ≤ f (compare_entries (ScoreMode.scalar f) e x).msg ∧
        f x.msg ≤ f (compare_entries (ScoreMode.scalar f) e x).msg := by
      unfold compare_entries
      dsimp only
      by_cases h1 : f x.msg ≤ f e.msg
      · rw [if_pos h1]
        exact ⟨le_refl _, h1⟩
      · rw [if_neg h1]
        exact ⟨le_of_lt (lt_of_not_le h1), le_refl _⟩
    rcases List.mem_cons.mp hc with h2 | h3
    · subst h2
      exact le_trans hkey.1 (ih _ _ (List.mem_cons_self _ _))
    · rcases List.mem_cons.mp h3 with h4 | h5
      · subst h4
        exact le_trans hkey.2 (ih _ _ (List.mem_cons_self _ _))
      · exact ih (compare_entries (ScoreMode.scalar f) e x) c (List.mem_cons_of_mem _ h5)

theorem choose_entry_scalar_spec (cfg : DispatcherConfig Msg Key) (f : Msg → Int)
    (hsc : cfg.score = some (ScoreMode.scalar f))
    (hperm : ∀ l, (cfg.shuffle_perm l).Perm l)
    (entries : List (BufEntry Msg)) (hne : entries ≠ []) :
    ∃ w, choose_entry cfg entries = some w ∧ w ∈ entries ∧
      ∀ c ∈ entries, f c.msg ≤ f w.msg := by
  unfold choose_entry
  have hes : (if cfg.shuffle then cfg.shuffle_perm entries else entries).Perm entries := by
    by_cases hs : cfg.shuffle
    · rw [if_pos hs]
      exact hperm entries
    · rw [if_neg hs]
  rw [hsc]
  cases hesc : (if cfg.shuffle then cfg.shuffle_perm entries else entries) with
  | nil =>
    exfalso
    apply hne
    rw [hesc] at hes
    exact (hes.nil_eq).symm
  | cons e rest =>
    rw [hesc] at hes
    refine ⟨rest.foldl (compare_entries (ScoreMode.scalar f)) e, rfl, ?_, ?_⟩
    · exact hes.subset (foldl_compare_mem f rest e)
    · intro c hc
      exact foldl_compare_max f rest e c (hes.mem_iff.mpr hc)

theorem dismiss_compete_spec (cfg : DispatcherConfig Msg Key) (f : Msg → Int)
    (hsc : cfg.score = some (ScoreMode.scalar f))
    (hperm : ∀ l, (cfg.shuffle_perm l).Perm l)
    (buf : List (Option Key × List (BufEntry Msg))) (k : Option Key)
    (hne : buf_get buf k ≠ []) :
    ∃ w, w ∈ buf_get buf k ∧ (∀ c ∈ buf_get buf k, f c.msg ≤ f w.msg) ∧
      dismiss_active_key cfg buf k = (buf_erase buf k, [(w.routing_key, w.msg)]) := by
  obtain ⟨w, hch, hmem, hmax⟩ := choose_entry_scalar_spec cfg f hsc hperm (buf_get buf k) hne
  refine ⟨w, hmem, hmax, ?_⟩
  unfold dismiss_active_key
  rw [hsc]
  dsimp only
  rw [if_neg hne, hch]

theorem dismiss_fold_cons (cfg : DispatcherConfig Msg Key)
    (buf : List (Option Key × List (BufEntry Msg))) (k : Option Key)
    (rest : List (Option Key)) :
    dismiss_fold cfg buf (k :: rest) =
      ((dismiss_fold cfg (dismiss_active_key cfg buf k).1 rest).1,
       (dismiss_active_key cfg buf k).2 ++
         (dismiss_fold cfg (dismiss_active_key cfg buf k).1 rest).2) := rfl

theorem dismiss_sublist (cfg : DispatcherConfig Msg Key)
    (buf : List (Option Key × List (BufEntry Msg))) (k : Option Key) :
    ((dismiss_active_key cfg buf k).1).Sublist buf := by
  unfold dismiss_active_key
  cases hsc : cfg.score with
  | none => exact List.Sublist.refl buf
  | some sm =>
    dsimp only
    by_cases hb : buf_get buf k = []
    · rw [if_pos hb]
    · rw [if_neg hb]
      cases choose_entry cfg (buf_get buf k) with
      | none => exact List.eraseP_sublist buf
      | some w => exact List.eraseP_sublist buf

theorem dismiss_get_ne (cfg : DispatcherConfig Msg Key)
    (buf : List (Option Key × List (BufEntry Msg))) (k k2 : Option Key)
    (hne : k2 ≠ k) :
    buf_get (dismiss_active_key cfg buf k).1 k2 = buf_get buf k2 := by
  unfold dismiss_active_key
  cases hsc : cfg.score with
  | none => rfl
  | some sm =>
    dsimp only
    by_cases hb : buf_get buf k = []
    · rw [if_pos hb]
    · rw [if_neg hb]
      cases choose_entry cfg (buf_get buf k) with
      | none => exact buf_get_erase_ne buf k k2 hne
      | some w => exact buf_get_erase_ne buf k k2 hne

theorem dismiss_fold_sublist (cfg : DispatcherConfig Msg Key) (del : List (Option Key)) :
    ∀ buf, ((dismiss_fold cfg buf del).1).Sublist buf := by
  induction del with
  | nil =>
    intro buf
    exact List.Sublist.refl buf
  | cons k rest ih =>
    intro buf
    rw [dismiss_fold_cons]
    exact (ih (dismiss_active_key cfg buf k).1).trans (dismiss_sublist cfg buf k)

theorem dismiss_fold_get_not_mem (cfg : DispatcherConfig Msg Key)
    (del : List (Option Key)) :
    ∀ buf k2, k2 ∉ del →
      buf_get (dismiss_fold cfg buf del).1 k2 = buf_get buf k2 := by
  induction del with
  | nil =>
    intro buf k2 _
    rfl
  | cons k rest ih =>
    intro buf k2 hk2
    rw [dismiss_fold_cons]
    dsimp only
    rw [ih _ k2 (fun hc => hk2 (List.mem_cons_of_mem _ hc))]
    exact dismiss_get_ne cfg buf k k2
      (fun hc => hk2 (by rw [hc]; exact List.mem_cons_self _ _))

theorem buf_get_mem_entry (buf : List (Option Key × List (BufEntry Msg)))
    (k : Option Key) (c : BufEntry Msg) (hc : c ∈ buf_get buf k) :
    ∃ q ∈ buf, q.1 = k ∧ c ∈ q.2 := by
  unfold buf_get at hc
  cases hf : buf.find? (fun p => p.1 == k) with
  | none =>
    rw [hf] at hc
    exact absurd hc (List.not_mem_nil c)
  | some q =>
    rw [hf] at hc
    refine ⟨q, List.mem_of_find?_eq_some hf, ?_, hc⟩
    have hq := List.find?_some hf
    exact beq_iff_eq.mp hq

theorem dismiss_fold_compete_spec (cfg : DispatcherConfig Msg Key) (f : Msg → Int)
    (hsc : cfg.score = some (ScoreMode.scalar f))
    (hperm : ∀ l, (cfg.shuffle_perm l).Perm l) (del : List (Option Key)) :
    ∀ buf, del.Pairwise (fun a b => a ≠ b) →
    (∀ k ∈ del, buf_get buf k ≠ []) →
    ∃ ws : List (BufEntry Msg),
      (dismiss_fold cfg buf del).2 = ws.map (fun w => (w.routing_key, w.msg)) ∧
      ws.length = del.length ∧
      ∀ kw ∈ del.zip ws, kw.2 ∈ buf_get buf kw.1 ∧
        ∀ c ∈ buf_get buf kw.1, f c.msg ≤ f kw.2.msg := by
  induction del with
  | nil =>
    intro buf _ _
    refine ⟨[], rfl, rfl, ?_⟩
    intro kw hkw
    exact absurd hkw (List.not_mem_nil kw)
  | cons k rest ih =>
    intro buf hdist hne
    obtain ⟨hk1, hdist2⟩ := List.pairwise_cons.mp hdist
    obtain ⟨w, hwmem, hwmax, hdak⟩ := dismiss_compete_spec cfg f hsc hperm buf k
      (hne k (List.mem_cons_self k rest))
    have hget : ∀ k2 ∈ rest, buf_get (buf_erase buf k) k2 = buf_get buf k2 := by
      intro k2 hk2
      exact buf_get_erase_ne buf k k2 (fun hc => (hk1 k2 hk2) hc.symm)
    obtain ⟨ws, hws1, hws2, hws3⟩ := ih (buf_erase buf k) hdist2
      (fun k2 hk2 => by
        rw [hget k2 hk2]
        exact hne k2 (List.mem_cons_of_mem k hk2))
    rw [dismiss_fold_cons, hdak]
    refine ⟨w :: ws, ?_, ?_, ?_⟩
    · dsimp only
      rw [hws1]
      rfl
    · dsimp only
      rw [List.length_cons, List.length_cons, hws2]
    · intro kw hkw
      rw [List.zip_cons_cons] at hkw
      rcases List.mem_cons.mp hkw with h1 | h2
      · subst h1
        exact ⟨hwmem, hwmax⟩
      · obtain ⟨k2, w2⟩ := kw
        have hk2 : k2 ∈ rest := (List.of_mem_zip h2).1
        have := hws3 (k2, w2) h2
        rw [hget k2 hk2] at this
        exact this

end Amqpfind

namespace Amqpfind

variable {Msg Key : Type} [DecidableEq Msg] [DecidableEq Key]

theorem buf_append_keys_pairwise (buf : List (Option Key × List (BufEntry Msg)))
    (k : Option Key) (e : BufEntry Msg)
    (h : buf.Pairwise (fun p q => p.1 ≠ q.1)) :
    (buf_append buf k e).Pairwise (fun p q => p.1 ≠ q.1) := by
  by_cases hany : buf.any (fun q => q.1 == k) = true
  · rw [buf_append_hit buf k e hany]
    rw [List.pairwise_map]
    refine h.imp ?_
    intro a b hab
    have ha : (if a.1 = k then (a.1, a.2 ++ [e]) else a).1 = a.1 := by
      by_cases h1 : a.1 = k
      · rw [if_pos h1]
      · rw [if_neg h1]
    have hb : (if b.1 = k then (b.1, b.2 ++ [e]) else b).1 = b.1 := by
      by_cases h1 : b.1 = k
      · rw [if_pos h1]
      · rw [if_neg h1]
    rw [ha, hb]
    exact hab
  · rw [buf_append_miss buf k e (Bool.eq_false_iff.mpr hany)]
    rw [List.pairwise_append]
    refine ⟨h, List.pairwise_singleton _ _, ?_⟩
    intro a ha b hb
    rw [List.mem_singleton] at hb
    subst hb
    intro hc
    apply hany
    exact List.any_eq_true.mpr ⟨a, ha, beq_iff_eq.mpr hc⟩

theorem buf_append_keyed (cfg : DispatcherConfig Msg Key)
    (buf : List (Option Key × List (BufEntry Msg)))
    (k : Option Key) (e : BufEntry Msg) (he : key_for_msg cfg e.msg = k)
    (h : ∀ q ∈ buf, ∀ x ∈ q.2, key_for_msg cfg x.msg = q.1) :
    ∀ q ∈ buf_append buf k e, ∀ x ∈ q.2, key_for_msg cfg x.msg = q.1 := by
  by_cases hany : buf.any (fun q => q.1 == k) = true
  · rw [buf_append_hit buf k e hany]
    intro q hq x hx
    rcases List.mem_map.mp hq with ⟨p, hp, rfl⟩
    by_cases hpk : p.1 = k
    · rw [if_pos hpk] at hx ⊢
      rcases List.mem_append.mp hx with h1 | h2
      · exact h p hp x h1
      · rw [List.mem_singleton] at h2
        subst h2
        rw [he, hpk]
    · rw [if_neg hpk] at hx ⊢
      exact h p hp x hx
  · rw [buf_append_miss buf k e (Bool.eq_false_iff.mpr hany)]
    intro q hq x hx
    rcases List.mem_append.mp hq with h1 | h2
    · exact h q h1 x hx
    · rw [List.mem_singleton] at h2
      subst h2
      rw [List.mem_singleton] at hx
      subst hx
      exact he

theorem compete_inv_clean (cfg : DispatcherConfig Msg Key)
    (st : DispatcherState Msg Key) (now : Nat) (h : CompeteInv cfg st) :
    CompeteInv cfg (clean_expired cfg st now).1 := by
  obtain ⟨h1, h2, h3, h4⟩ := h
  unfold clean_expired
  dsimp only
  have hsub := dismiss_fold_sublist cfg
    ((st.active_keys.filter (fun p => p.2 + cfg.horizon < now)).map (fun p => p.1))
    st.msg_buffer
  refine ⟨?_, ?_, h3.sublist (List.filter_sublist _), h4.sublist hsub⟩
  · intro p hp
    have hpa : p ∈ st.active_keys := List.mem_of_mem_filter hp
    have hpcond : ¬ (p.2 + cfg.horizon < now) := by
      have := List.of_mem_filter hp
      simpa using this
    have hnot : p.1 ∉ (st.active_keys.filter
        (fun q => q.2 + cfg.horizon < now)).map (fun q => q.1) := by
      intro hc
      rcases List.mem_map.mp hc with ⟨q, hq, hq1⟩
      have hqa : q ∈ st.active_keys := List.mem_of_mem_filter hq
      have hqcond : q.2 + cfg.horizon < now := by
        have := List.of_mem_filter hq
        simpa using this
      by_cases hpq : p = q
      · subst hpq
        exact hpcond hqcond
      · have hsym : Symmetric (fun (a b : Option Key × Nat) => a.1 ≠ b.1) :=
          fun a b hab => hab.symm
        exact (List.Pairwise.forall hsym h3 hpa hqa hpq) hq1.symm
    rw [dismiss_fold_get_not_mem cfg _ st.msg_buffer p.1 hnot]
    exact h1 p hpa
  · intro q hq x hx
    exact h2 q (hsub.mem hq) x hx

theorem dispatcher_call_compete_ev (cfg : DispatcherConfig Msg Key)
    (kf : Msg → Option Key) (sm : ScoreMode Msg)
    (hk : cfg.key_code = some kf) (hsc : cfg.score = some sm)
    (st : DispatcherState Msg Key) (now when : Nat) (host rk : String) (m : Msg) :
    dispatcher_call cfg st now (some (when, host, rk, m)) =
      (dispatch_compete cfg (clean_expired cfg st now).1 when host rk m,
       (clean_expired cfg st now).2) := by
  unfold dispatcher_call
  rw [dispatcher_call_cleaned, hk, hsc]

theorem compete_inv_dispatch (cfg : DispatcherConfig Msg Key)
    (st : DispatcherState Msg Key) (when : Nat) (host rk : String) (m : Msg)
    (h : CompeteInv cfg st) :
    CompeteInv cfg (dispatch_compete cfg st when host rk m) := by
  obtain ⟨h1, h2, h3, h4⟩ := h
  unfold dispatch_compete
  dsimp only
  by_cases hhas : hasKeyEntry st.active_keys (key_for_msg cfg m) = true
  · rw [if_pos hhas]
    refine ⟨?_, buf_append_keyed cfg _ _ _ rfl h2, h3,
      buf_append_keys_pairwise _ _ _ h4⟩
    intro p hp
    by_cases hpk : p.1 = key_for_msg cfg m
    · rw [hpk, buf_get_append_self]
      intro hc
      exact absurd hc (List.append_ne_nil_of_right_ne_nil _ (by simp))
    · rw [buf_get_append_ne _ _ _ _ hpk]
      exact h1 p hp
  · rw [if_neg hhas]
    have hhas2 : hasKeyEntry st.active_keys (key_for_msg cfg m) = false :=
      Bool.eq_false_iff.mpr hhas
    have hnone := (hasKeyEntry_false_iff st.active_keys (key_for_msg cfg m)).mp hhas2
    refine ⟨?_, buf_append_keyed cfg _ _ _ rfl h2, ?_,
      buf_append_keys_pairwise _ _ _ h4⟩
    · intro p hp
      rcases List.mem_append.mp hp with hp1 | hp2
      · by_cases hpk : p.1 = key_for_msg cfg m
        · rw [hpk, buf_get_append_self]
          intro hc
          exact absurd hc (List.append_ne_nil_of_right_ne_nil _ (by simp))
        · rw [buf_get_append_ne _ _ _ _ hpk]
          exact h1 p hp1
      · rw [List.mem_singleton] at hp2
        subst hp2
        rw [buf_get_append_self]
        intro hc
        exact absurd hc (List.append_ne_nil_of_right_ne_nil _ (by simp))
    · rw [List.pairwise_append]
      refine ⟨h3, List.pairwise_singleton _ _, ?_⟩
      intro a ha b hb
      rw [List.mem_singleton] at hb
      subst hb
      exact hnone a ha

theorem compete_run_inv (cfg : DispatcherConfig Msg Key) (kf : Msg → Option Key)
    (sm : ScoreMode Msg) (hk : cfg.key_code = some kf) (hsc : cfg.score = some sm)
    (steps : List (Step Msg)) :
    ∀ (st : DispatcherState Msg Key) (log : List (Nat × String × Msg)),
      CompeteInv cfg st → CompeteInv cfg (run_from cfg st log steps).1 := by
  induction steps with
  | nil =>
    intro st log h
    exact h
  | cons s rest ih =>
    intro st log h
    rw [run_from_cons]
    apply ih
    cases s with
    | tick now =>
      show CompeteInv cfg (dispatcher_call cfg st now none).1
      rw [dispatcher_call_tick_clean]
      exact compete_inv_clean cfg st now h
    | ev now host rk m =>
      show CompeteInv cfg (dispatcher_call cfg st now (some (now, host, rk, m))).1
      rw [dispatcher_call_compete_ev cfg kf sm hk hsc]
      exact compete_inv_dispatch cfg _ now host rk m (compete_inv_clean cfg st now h)

end Amqpfind

namespace Amqpfind

variable {Msg Key : Type} [DecidableEq Msg] [DecidableEq Key]

/-- C1: in Compete mode (key and scalar score expression configured), for
every window that closes at a cleanup pass exactly one event is emitted
for that window's key: the emits of the pass are, in order, one winner
per expired key; each winner is one of the candidates buffered for its
key during the window and carries that key; and the winner has the
largest scalar score among the candidates (the pairwise comparison keeps
its first argument on ties and is folded over the, possibly shuffled,
candidate list, modelled by an arbitrary permutation). -/
theorem compete_window_close_one_best (kf : Msg → Option Key) (f : Msg → Int)
    (hor : Nat) (perm : List (BufEntry Msg) → List (BufEntry Msg))
    (hperm : ∀ l, (perm l).Perm l) (steps : List (Step Msg)) (now : Nat) :
    ∃ ws : List (BufEntry Msg),
      window_close_emits (competeCfg kf f hor perm)
          (compete_state (competeCfg kf f hor perm) steps) now =
        ws.map (fun w => (w.routing_key, w.msg)) ∧
      ws.length = (expired_keys (competeCfg kf f hor perm)
        (compete_state (competeCfg kf f hor perm) steps) now).length ∧
      ∀ kw ∈ (expired_keys (competeCfg kf f hor perm)
          (compete_state (competeCfg kf f hor perm) steps) now).zip ws,
        kw.2 ∈ buf_get
          (compete_state (competeCfg kf f hor perm) steps).msg_buffer kw.1 ∧
        key_for_msg (competeCfg kf f hor perm) kw.2.msg = kw.1 ∧
        ∀ c ∈ buf_get
            (compete_state (competeCfg kf f hor perm) steps).msg_buffer kw.1,
          f c.msg ≤ f kw.2.msg := by
  set cfg := competeCfg kf f hor perm with hcfg
  set st := compete_state cfg steps with hstdef
  have hinv : CompeteInv cfg st := by
    rw [hstdef]
    show CompeteInv cfg (run_from cfg initState [] steps).1
    apply compete_run_inv cfg kf (ScoreMode.scalar f) rfl rfl steps initState []
    exact ⟨fun p hp => absurd hp (List.not_mem_nil p),
           fun q hq => absurd hq (List.not_mem_nil q),
           List.Pairwise.nil, List.Pairwise.nil⟩
  obtain ⟨h1, h2, h3, h4⟩ := hinv
  have hdist : (expired_keys cfg st now).Pairwise (fun a b => a ≠ b) := by
    unfold expired_keys
    rw [List.pairwise_map]
    exact h3.sublist (List.filter_sublist _)
  have hne : ∀ k ∈ expired_keys cfg st now, buf_get st.msg_buffer k ≠ [] := by
    intro k hkk
    unfold expired_keys at hkk
    rcases List.mem_map.mp hkk with ⟨p, hp, rfl⟩
    exact h1 p (List.mem_of_mem_filter hp)
  have hkeyed : ∀ k ∈ expired_keys cfg st now, ∀ c ∈ buf_get st.msg_buffer k,
      key_for_msg cfg c.msg = k := by
    intro k _ c hc
    obtain ⟨q, hq, hq1, hcq⟩ := buf_get_mem_entry st.msg_buffer k c hc
    rw [← hq1]
    exact h2 q hq c hcq
  obtain ⟨ws, hws1, hws2, hws3⟩ := dismiss_fold_compete_spec cfg f rfl hperm
    (expired_keys cfg st now) st.msg_buffer hdist hne
  refine ⟨ws, ?_, hws2, ?_⟩
  · show (clean_expired cfg st now).2 = _
    have hce : (clean_expired cfg st now).2 =
        (dismiss_fold cfg st.msg_buffer (expired_keys cfg st now)).2 := rfl
    rw [hce, hws1]
  · intro kw hkw
    obtain ⟨k2, w2⟩ := kw
    have hk2 : k2 ∈ expired_keys cfg st now := (List.of_mem_zip hkw).1
    have hw := hws3 (k2, w2) hkw
    exact ⟨hw.1, hkeyed k2 hk2 w2 hw.1, hw.2⟩

theorem compete_window_close_one_best_witness :
    ∃ ws : List (BufEntry Nat),
      window_close_emits compete_demo_cfg
          (compete_state compete_demo_cfg compete_demo_steps) 20 =
        ws.map (fun w => (w.routing_key, w.msg)) ∧
      ws.length = (expired_keys compete_demo_cfg
        (compete_state compete_demo_cfg compete_demo_steps) 20).length ∧
      ∀ kw ∈ (expired_keys compete_demo_cfg
          (compete_state compete_demo_cfg compete_demo_steps) 20).zip ws,
        kw.2 ∈ buf_get
          (compete_state compete_demo_cfg compete_demo_steps).msg_buffer kw.1 ∧
        key_for_msg compete_demo_cfg kw.2.msg = kw.1 ∧
        ∀ c ∈ buf_get
            (compete_state compete_demo_cfg compete_demo_steps).msg_buffer kw.1,
          (c.msg : Int) ≤ (kw.2.msg : Int) :=
  @compete_window_close_one_best Nat Nat _ _ (fun m => some (m % 10))
    (fun m => (m : Int)) 10 id (fun l => List.Perm.refl l) compete_demo_steps 20

end Amqpfind
